import Mathlib

/-!
Verification of the cross-validation metrics module of the e3fp-paper
repository (`e3fp_paper/crossvalidation/util.py`) against its
natural-language specification.

The Python code is shallowly embedded below:

* scipy CSR / COO sparse matrices become explicit records of index lists;
* Python dicts that are only read become either association lists
  (when iteration order or key errors matter) or plain functions;
* molecule / target identifiers (Python strings) become an arbitrary
  linearly ordered type `α`, names and descriptions an opaque type `δ`;
* floating point numbers become `ℚ` where only field arithmetic is used
  and `ℝ` where logarithms are needed (`get_logauc`);
* code that can raise becomes `Option`/`Except` valued.

Definitions carry the names of the Python functions they embed.
-/

namespace E3FP

/-- Python-dict lookup `d[k]` on an association list: the first binding of
the key wins, `none` models a `KeyError`.  A Python dict never holds a
duplicate key, so on the lists we build from dicts this is exact. -/
def dictLookup {α β : Type} [DecidableEq α] (k : α) : List (α × β) → Option β
  | [] => none
  | (k', v) :: rest => if k' = k then some v else dictLookup k rest

/-- Python `sorted(s)` for a set `s` of identifiers: the duplicate-free
sorted list of its elements (Python string order and the `LinearOrder`
on `α` are both total orders, which is all the code relies on). -/
def pySorted {α : Type} [LinearOrder α] (l : List α) : List α :=
  (l.dedup).insertionSort (· ≤ ·)

/-! ## Sparse Array Codec (`save_fprints_arr` / `load_fprints_arr`) -/

/-- A scipy `csr_matrix` holding boolean entries: `data` are the stored
values, `indices` the per-entry column indices, `indptr` the row boundary
offsets.  The matrix has shape `nrows × ncols`. -/
structure CsrMatrix where
  nrows : Nat
  ncols : Nat
  data : List Bool
  indices : List Nat
  indptr : List Nat
deriving DecidableEq

/-- The archive written by `np.savez` in `save_fprints_arr`: the fields
`indices`, `indptr`, `shape`, `ndata` and `mol_indices` of the file.
The `dtype` field of the real archive carries no information in the
boolean model (all data are `Bool`) and is omitted here.  The row index
map `mol_indices` is stored opaquely (type `μ`). -/
structure FprintsArchive (μ : Type) where
  indices : List Nat
  indptr : List Nat
  shape : Nat × Nat
  ndata : Nat
  mol_indices : μ
deriving DecidableEq

/-- Embedding of `save_fprints_arr` (util.py lines 134-141): stores the
CSR index structure, the shape, the number of stored entries
(`ndata = len(arr.data)`) and the row index map — but not the data
values themselves. -/
def save_fprints_arr {μ : Type} (arr : CsrMatrix) (mol_indices : μ) : FprintsArchive μ :=
  ⟨arr.indices, arr.indptr, (arr.nrows, arr.ncols), arr.data.length, mol_indices⟩

/-- Embedding of `load_fprints_arr` (util.py lines 144-159): rebuilds the
matrix with `data = np.ones(ndata)`, i.e. a list of `ndata` `true`
entries, and returns it with the stored row index map. -/
def load_fprints_arr {μ : Type} (f : FprintsArchive μ) : CsrMatrix × μ :=
  (⟨f.shape.1, f.shape.2, List.replicate f.ndata true, f.indices, f.indptr⟩, f.mol_indices)

/-- The set of nonzero positions of a CSR matrix: for each row `i`, the
stored entry slots `p` in `[indptr[i], indptr[i+1])` whose data value is
`true` contribute the position `(i, indices[p])`. -/
def nonzeroPositions (m : CsrMatrix) : List (Nat × Nat) :=
  (List.range m.nrows).flatMap (fun i =>
    (List.range' (m.indptr.getD i 0) (m.indptr.getD (i + 1) 0 - m.indptr.getD i 0)).filterMap
      (fun p => if m.data.getD p false then some (i, m.indices.getD p 0) else none))

/-! ## Dict aggregation utilities (`merge_dicts` / `average_dict_values`) -/

/-- One step of `merged.setdefault(k, []).append(v)`: append `v` to the
value list bound to `k`, or add the binding `k ↦ [v]` if absent. -/
def setdefaultAppend {α β : Type} [DecidableEq α] (m : List (α × List β)) (k : α) (v : β) :
    List (α × List β) :=
  match m with
  | [] => [(k, [v])]
  | (k', vs) :: rest =>
      if k' = k then (k', vs ++ [v]) :: rest else (k', vs) :: setdefaultAppend rest k v

/-- The inner loop of `merge_dicts`: insert every binding of the dict `d`
into the accumulator `m`. -/
def insertDict {α β : Type} [DecidableEq α] (m : List (α × List β)) (d : List (α × β)) :
    List (α × List β) :=
  d.foldl (fun m' kv => setdefaultAppend m' kv.1 kv.2) m

/-- Embedding of `merge_dicts(*ds)` (util.py lines 168-174): fold the
dicts in the order they are passed, appending each value to its key's
list. -/
def merge_dicts {α β : Type} [DecidableEq α] (ds : List (List (α × β))) : List (α × List β) :=
  ds.foldl insertDict []

/-- Arithmetic mean, the embedding of `np.mean` on a list of rationals. -/
def npMean (vs : List ℚ) : ℚ :=
  vs.sum / vs.length

/-- Embedding of `average_dict_values(*ds)` (util.py lines 177-180):
merge, then take the arithmetic mean of every value list. -/
def average_dict_values {α : Type} [DecidableEq α] (ds : List (List (α × ℚ))) :
    List (α × ℚ) :=
  (merge_dicts ds).map (fun kv => (kv.1, npMean kv.2))

/-- Helper describing how a key's value list grows during merging:
append `vs` to the list held in `o`, where `none` means "no binding yet"
and the result is a binding as soon as either side contributes. -/
def optAppend {β : Type} (o : Option (List β)) (vs : List β) : Option (List β) :=
  match o with
  | some acc => some (acc ++ vs)
  | none =>
      match vs with
      | [] => none
      | _ => some vs

/-! ## Array Builder (`molecules_to_array` / `targets_to_array`) -/

/-- Modelled from the spec: a fingerprint "native tuple" (spec §3, §6) is
an opaque record convertible to its total bit width and to the list of
its set bit indices.  The converters `native_tuple_to_fprint(...).bits`
and `native_tuple_to_indices` are repository code outside `src/`
(`e3fp_paper.pipeline`, `e3fp_paper.sea_utils.util`); per §6 they are the
"bit-extraction function mapping one fingerprint record to its set of bit
indices and its total bit width", modelled as the two fields below. -/
structure NativeTuple where
  bits : Nat
  indices : List Nat
deriving DecidableEq, Inhabited

/-- Modelled from the spec: `native_tuple_to_fprint(nt).bits`. -/
def native_tuple_bits (nt : NativeTuple) : Nat :=
  nt.bits

/-- Modelled from the spec: `native_tuple_to_indices(nt)`. -/
def native_tuple_to_indices (nt : NativeTuple) : List Nat :=
  nt.indices

/-- A coordinate-form boolean sparse matrix, the model of the scipy
matrices built by the array builders: every listed position holds
`true`, everything else is zero. -/
structure CooMat where
  nrows : Nat
  ncols : Nat
  coords : List (Nat × Nat)
deriving DecidableEq

/-- Python `mol_list_dict[mol_name]` inside `molecules_to_array`.  Under
the function's own asserted precondition the key is always present; on a
missing key Python would raise, while this total model yields `[]`,
which the loop below also turns into a failure. -/
def lookupRecords {α : Type} [DecidableEq α]
    (mol_list_dict : List (α × List NativeTuple)) (name : α) : List NativeTuple :=
  (dictLookup name mol_list_dict).getD []

/-- The per-molecule coordinate pairs
`[(i, j) for i, n in izip(row_inds, native_tuples)
         for j in native_tuple_to_indices(n)]`
with `row_inds = range(o, o + len(native_tuples))`. -/
def fpPairs (o : Nat) (nts : List NativeTuple) : List (Nat × Nat) :=
  ((List.range' o nts.length).zip nts).flatMap
    (fun p => (native_tuple_to_indices p.2).map (fun j => (p.1, j)))

/-- The molecule loop of `molecules_to_array` (util.py lines 84-94):
`k` is the position in the molecule list, `o` the next free row
(`max_ind`).  Returns the row index map entries, the coordinate list and
the final row count.  `none` embeds the `ValueError` Python raises
unpacking `zip(*[...])` when a molecule contributes no (row, bit) pair
at all (no record, or only records without set bits). -/
def mtaLoop {α : Type} [DecidableEq α] (mol_list_dict : List (α × List NativeTuple)) :
    Nat → Nat → List α → Option (List (Nat × List Nat) × List (Nat × Nat) × Nat)
  | _, o, [] => some ([], [], o)
  | k, o, name :: rest =>
      let nts := lookupRecords mol_list_dict name
      let row_inds := List.range' o nts.length
      let pairs := fpPairs o nts
      if pairs = [] then none
      else
        (mtaLoop mol_list_dict (k + 1) (o + nts.length) rest).map
          (fun r => ((k, row_inds) :: r.1, pairs ++ r.2.1, r.2.2))

/-- Embedding of `molecules_to_array` (util.py lines 50-106), sparse
branch, for a pre-parsed `mol_list_dict` given as an association list in
dict iteration order.  `none` embeds the assertion failure when the key
sets differ, the failure reading the bit width from the first molecule's
first record (`next(mol_list_dict.itervalues())[0]`), and the
`ValueError` of the molecule loop. -/
def molecules_to_array {α : Type} [DecidableEq α]
    (mol_list_dict : List (α × List NativeTuple)) (mol_list : List α) :
    Option (CooMat × List (Nat × List Nat)) :=
  if (mol_list_dict.map Prod.fst).toFinset = mol_list.toFinset then
    match mol_list_dict with
    | [] => none
    | (_, ts) :: _ =>
        match ts with
        | [] => none
        | t0 :: _ =>
            (mtaLoop mol_list_dict 0 0 mol_list).map
              (fun r => (⟨r.2.2, native_tuple_bits t0, r.2.1⟩, r.1))
  else none

/-- All fingerprint records of the molecules of `mol_list`, in matrix
row order (molecules in list order, each molecule's records in their
stored order). -/
def flatRecords {α : Type} [DecidableEq α]
    (mol_list_dict : List (α × List NativeTuple)) (mol_list : List α) : List NativeTuple :=
  mol_list.flatMap (lookupRecords mol_list_dict)

/-- Modelled from the spec: seacore's `SetValue(name, cids, description)`
record, the representation of a Target (spec §3): a name, an ordered
collection of molecule identifiers, and a free-text description. -/
structure SetValue (α δ : Type) where
  name : δ
  cids : List α
  description : δ
deriving DecidableEq

/-- Option-valued traversal: the whole loop fails (`none`) as soon as
`f` fails on one element — the model of an uncaught Python exception
escaping a loop. -/
def optTraverse {α β : Type} (f : α → Option β) : List α → Option (List β)
  | [] => some []
  | a :: l =>
      match f a, optTraverse f l with
      | some b, some bs => some (b :: bs)
      | _, _ => none

/-- Embedding of `mol_inds = {x: i for i, x in enumerate(mol_list)}`
followed by `mol_inds[mol_name]` (util.py lines 40, 43-44): the position
of a molecule in the molecule list, `none` for the `KeyError` on an
unknown molecule.  For the duplicate-free Molecule List of the spec's
data model the comprehension dict and the first-position search agree. -/
def molIndex {α : Type} [DecidableEq α] (mol_list : List α) (x : α) : Option Nat :=
  match mol_list with
  | [] => none
  | y :: rest => if y = x then some 0 else (molIndex rest x).map (· + 1)

/-- Embedding of `targets_to_array` (util.py lines 32-47) for a
pre-parsed targets dict: rows follow the sorted target keys, columns the
molecule list order; row `i` holds `true` at the columns of the
molecules in target `i`'s `cids`.  `none` embeds the `KeyError` raised
by `mol_inds[mol_name]` when a target's `cids` mention a molecule absent
from `mol_list`. -/
def targets_to_array {α δ : Type} [LinearOrder α]
    (targets_dict : List (α × SetValue α δ)) (mol_list : List α) :
    Option (CooMat × List α) :=
  let target_list := pySorted (targets_dict.map Prod.fst)
  (optTraverse (fun key =>
      optTraverse (molIndex mol_list)
        ((dictLookup key targets_dict).elim [] (fun sv => sv.cids)))
    target_list).map
    (fun rows =>
      (⟨target_list.length, mol_list.length,
          rows.enum.flatMap (fun p => p.2.map (fun j => (p.1, j)))⟩,
        target_list))

/-! ## Fold Splitter (`train_test_dicts_from_mask`) -/

/-- Embedding of `np.where(row == v)[0]` on one mask row: the column
indices holding value `v`. -/
def whereVal (row : List Int) (v : Int) : List Nat :=
  (List.range row.length).filter (fun j => decide (row.getD j 0 = v))

/-- Columns for which some mask row holds `v`, i.e.
`np.where(np.any(mask == v, axis=0))[0]` as a predicate. -/
def anyRowHas (mask : List (List Int)) (v : Int) (j : Nat) : Bool :=
  mask.any (fun row => decide (row.getD j 0 = v))

/-- The test molecules of target row `i`: `mask[i] == 1` columns mapped
through the molecule list (util.py lines 121-122); the Python set
`test_mols` is this list up to duplicates, and only membership in it is
ever used. -/
def testMolsOfRow {α : Type} [Inhabited α]
    (mol_list : List α) (mask : List (List Int)) (i : Nat) : List α :=
  (whereVal (mask.getD i []) 1).map (fun j => mol_list.getD j default)

/-- Embedding of `train_test_dicts_from_mask` (util.py lines 109-131).
The read-only dicts `mol_list_dict` and `target_dict` are modelled as
total functions (the source only looks up keys they contain).  Returns,
like the source, (train fingerprint dict, train target dict, test
fingerprint dict, test target dict); the source fills both target dicts
in one loop over `target_list`, modelled here as two maps over the same
list. -/
def train_test_dicts_from_mask {α β δ : Type} [LinearOrder α] [Inhabited α]
    (mol_list_dict : α → β) (mol_list : List α) (target_dict : α → SetValue α δ)
    (target_list : List α) (train_test_mask : List (List Int)) :
    List (α × β) × List (α × SetValue α δ) × List (α × β) × List (α × SetValue α δ) :=
  let test_mol_list_dict :=
    (mol_list.enum.filter (fun p => anyRowHas train_test_mask 1 p.1)).map
      (fun p => (p.2, mol_list_dict p.2))
  let train_mol_list_dict :=
    (mol_list.enum.filter (fun p => anyRowHas train_test_mask (-1) p.1)).map
      (fun p => (p.2, mol_list_dict p.2))
  let test_target_dict := target_list.enum.map (fun p =>
    let sv := target_dict p.2
    let test_mols := testMolsOfRow mol_list train_test_mask p.1
    (p.2, SetValue.mk sv.name
      (pySorted (sv.cids.filter (fun c => decide (c ∈ test_mols)))) sv.description))
  let train_target_dict := target_list.enum.map (fun p =>
    let sv := target_dict p.2
    let test_mols := testMolsOfRow mol_list train_test_mask p.1
    (p.2, SetValue.mk sv.name
      (pySorted (sv.cids.filter (fun c => decide (c ∉ test_mols)))) sv.description))
  (train_mol_list_dict, train_target_dict, test_mol_list_dict, test_target_dict)

/-! ## Metrics Engine (`get_roc_prc_auc`, `get_auc`) -/

/-- The error classes that escape the metric computations under the
`warnings.simplefilter("error")` regime of `get_roc_prc_auc`:
sklearn's `UndefinedMetricWarning` and numpy's invalid-value
`RuntimeWarning`, both raised as exceptions by the error filter. -/
inductive MetricError where
  | undefinedMetric : MetricError
  | runtimeInvalid : MetricError
deriving DecidableEq

/-- Trapezoidal area over consecutive points, the embedding of
`sklearn.metrics.auc`'s `np.trapz` (the monotonicity direction check of
`sk_auc` is not modelled; the code always feeds non-decreasing x). -/
def trapzSum : List ℚ → List ℚ → ℚ
  | x0 :: x1 :: xs, y0 :: y1 :: ys => (x1 - x0) * (y0 + y1) / 2 + trapzSum (x1 :: xs) (y1 :: ys)
  | _, _ => 0

/-- Embedding of `get_auc` (util.py lines 245-250): trapezoidal AUC,
minus 0.5 (a random classifier's AUC) when `adjusted`. -/
def get_auc (fp tp : List ℚ) (adjusted : Bool) : ℚ :=
  let auc_val := trapzSum fp tp
  if adjusted then auc_val - 1 / 2 else auc_val

/-- Modelled from the spec (§4.4, §7): the external `sklearn.roc_curve`
collaborator as observed under `warnings.simplefilter("error")`.  With a
single-class label vector one of the positive/negative totals is zero,
sklearn emits `UndefinedMetricWarning` (and numpy a division warning),
which the caller's error filter turns into a raised exception — modelled
as `Except.error`.  On two-class input it returns the (fpr, tpr,
thresholds) triple over the distinct scores in decreasing order
(`drop_intermediate` point dropping is not modelled; no claim depends on
the curve's interior points). -/
def roc_curve (y_true : List Bool) (y_score : List ℚ) :
    Except MetricError (List ℚ × List ℚ × List ℚ) :=
  let pos_total := (y_true.filter (fun b => b)).length
  let neg_total := (y_true.filter (fun b => !b)).length
  if pos_total = 0 ∨ neg_total = 0 then Except.error MetricError.undefinedMetric
  else
    let thresholds := (pySorted y_score).reverse
    let pairs := y_score.zip y_true
    let fpr := thresholds.map (fun t =>
      ((pairs.filter (fun p => decide (t ≤ p.1) && !p.2)).length : ℚ) / neg_total)
    let tpr := thresholds.map (fun t =>
      ((pairs.filter (fun p => decide (t ≤ p.1) && p.2)).length : ℚ) / pos_total)
    Except.ok (fpr, tpr, thresholds)

/-- Modelled from the spec (§4.4, §7): the external
`sklearn.precision_recall_curve` collaborator under the error filter.
With no positive label every recall is `0/0`, numpy's `RuntimeWarning`
becomes an exception — modelled as `Except.error`; otherwise precision
and recall over increasing thresholds with the final sentinel point
(precision 1, recall 0) appended. -/
def precision_recall_curve (y_true : List Bool) (y_score : List ℚ) :
    Except MetricError (List ℚ × List ℚ × List ℚ) :=
  let pos_total := (y_true.filter (fun b => b)).length
  if pos_total = 0 then Except.error MetricError.runtimeInvalid
  else
    let thresholds := pySorted y_score
    let pairs := y_score.zip y_true
    let precisionList := (thresholds.map (fun t =>
      ((pairs.filter (fun p => decide (t ≤ p.1) && p.2)).length : ℚ) /
        ((pairs.filter (fun p => decide (t ≤ p.1))).length : ℚ))) ++ [1]
    let recallList := (thresholds.map (fun t =>
      ((pairs.filter (fun p => decide (t ≤ p.1) && p.2)).length : ℚ) / pos_total)) ++ [0]
    Except.ok (precisionList, recallList, thresholds)

/-- Embedding of `get_roc_prc_auc` (util.py lines 198-242): under
`warnings.simplefilter("error")`, compute the ROC curve and its AUC,
then the precision-recall curve and its AUC; any warning raised inside
propagates (the `except` clauses just re-raise).  Returns, like the
source, `((fpr, tpr, roc_thresh), auroc, (recall, precision,
prc_thresh), auprc)`. -/
def get_roc_prc_auc (true_false : List Bool) (metrics : List ℚ) :
    Except MetricError
      ((List ℚ × List ℚ × List ℚ) × ℚ × (List ℚ × List ℚ × List ℚ) × ℚ) := do
  let (fpr, tpr, roc_thresh) ← roc_curve true_false metrics
  let auroc := get_auc fpr tpr false
  let (precisionList, recallList, prc_thresh) ← precision_recall_curve true_false metrics
  let auprc := get_auc recallList precisionList false
  return ((fpr, tpr, roc_thresh), auroc, (recallList, precisionList, prc_thresh), auprc)

/-! ## logAUC (`get_logauc`) -/

/-- Embedding of numpy's left-side binary search `np.searchsorted(a, v)`:
`lo, hi = 0, len(a)`; while `lo < hi`, probe `mid = (lo + hi) // 2` and
keep the half containing the insertion point.  The fuel argument — one
unit per iteration, `len(a)` at the top call — dominates the iteration
count, since the bracket shrinks every turn. -/
noncomputable def searchsortedLoop (a : List ℝ) (v : ℝ) : Nat → Nat → Nat → Nat
  | 0, lo, _ => lo
  | fuel + 1, lo, hi =>
      if lo < hi then
        if a.getD ((lo + hi) / 2) 0 < v then searchsortedLoop a v fuel ((lo + hi) / 2 + 1) hi
        else searchsortedLoop a v fuel lo ((lo + hi) / 2)
      else lo

/-- Embedding of `np.searchsorted(a, v)` with the default `side="left"`. -/
noncomputable def np_searchsorted (a : List ℝ) (v : ℝ) : Nat :=
  searchsortedLoop a v a.length 0 a.length

/-- The vectorized area computation of `get_logauc` (util.py lines
284-290) on the truncated curve `x`, `y`:
`dy = y[1:] - y[:-1]`, `intercept = y[1:] - x[1:]*(dy/dx)` — the
y-intercept of each segment's chord in untransformed (linear-x)
coordinates — with infinite intercepts replaced by 0, and
`areas = ((dy / np.log(10)) + intercept * np.log10(x[1:]/x[:-1])) / norm`
summed.  A degenerate pair of coincident points (`dx = dy = 0`) yields
NaN in floating point; NaN has no real-number counterpart, and this
model clamps that intercept to 0 as well. -/
noncomputable def logaucAreasSum (norm : ℝ) (x y : List ℝ) : ℝ :=
  let dy := List.zipWith (fun a b => b - a) y (y.drop 1)
  let dx := List.zipWith (fun a b => b - a) x (x.drop 1)
  let intercept := List.zipWith
    (fun yx dyx => if dyx.2 = 0 then 0 else yx.1 - yx.2 * (dyx.1 / dyx.2))
    ((y.drop 1).zip (x.drop 1)) (dy.zip dx)
  let areas := List.zipWith
    (fun db xx => (db.1 / Real.log 10 + db.2 * Real.logb 10 (xx.1 / xx.2)) / norm)
    (dy.zip intercept) ((x.drop 1).zip x)
  areas.sum

/-- Embedding of `get_logauc` (util.py lines 264-293): truncate the
curve to the points from `np.searchsorted(fp, min_fp)` on; when the cut
excludes the origin, prepend the step-interpolated point
`(min_fp, tp[lam_index - 1])`; sum the per-segment log-trapezoid areas
with `norm = log10(1/min_fp)`; when `adjusted`, subtract the hardcoded
random-classifier constant `0.144620062`. -/
noncomputable def get_logauc (fp tp : List ℝ) (min_fp : ℝ) (adjusted : Bool) : ℝ :=
  let lam_index := np_searchsorted fp min_fp
  let y := if lam_index ≠ 0 then tp.getD (lam_index - 1) 0 :: tp.drop lam_index
    else tp.drop lam_index
  let x := if lam_index ≠ 0 then min_fp :: fp.drop lam_index else fp.drop lam_index
  let logauc := logaucAreasSum (Real.logb 10 (1 / min_fp)) x y
  if adjusted then logauc - 0.144620062 else logauc

/-- The truncated x points as C4 describes them: `fp` from index
`searchsorted(fp, min_fp)` on, with the point at exactly `min_fp`
prepended when that index is positive. -/
noncomputable def logrocX (fp : List ℝ) (min_fp : ℝ) : List ℝ :=
  if np_searchsorted fp min_fp ≠ 0 then min_fp :: fp.drop (np_searchsorted fp min_fp)
  else fp.drop (np_searchsorted fp min_fp)

/-- The truncated y points as C4 describes them: `tp` from index
`searchsorted(fp, min_fp)` on, with the step-interpolated
`tp[index - 1]` (not a linear interpolation) prepended when the index is
positive. -/
noncomputable def logrocY (fp tp : List ℝ) (min_fp : ℝ) : List ℝ :=
  if np_searchsorted fp min_fp ≠ 0 then
    tp.getD (np_searchsorted fp min_fp - 1) 0 :: tp.drop (np_searchsorted fp min_fp)
  else tp.drop (np_searchsorted fp min_fp)

/-- One segment's area, `(Δy/ln 10 + intercept·log10(x1/x0))/norm`, with
`intercept` the y-intercept of the chord through `(x0, y0)` and
`(x1, y1)` in linear-x coordinates — what the code computes — set to
zero for a vertical chord (where it would be infinite). -/
noncomputable def logSegArea (norm x0 y0 x1 y1 : ℝ) : ℝ :=
  let dy := y1 - y0
  let intercept := if x1 - x0 = 0 then 0 else y1 - x1 * (dy / (x1 - x0))
  (dy / Real.log 10 + intercept * Real.logb 10 (x1 / x0)) / norm

/-- One segment's area with the intercept read as claim C4 literally
states it: the y-intercept of the line through the two points *in log-x
space*, i.e. through `(log10 x0, y0)` and `(log10 x1, y1)`, set to zero
when that line is vertical. -/
noncomputable def logSegAreaLogSpace (norm x0 y0 x1 y1 : ℝ) : ℝ :=
  let dy := y1 - y0
  let intercept := if Real.logb 10 x1 - Real.logb 10 x0 = 0 then 0
    else y1 - Real.logb 10 x1 * (dy / (Real.logb 10 x1 - Real.logb 10 x0))
  (dy / Real.log 10 + intercept * Real.logb 10 (x1 / x0)) / norm

/-- Sum of per-segment areas over consecutive truncated points. -/
noncomputable def segSum (area : ℝ → ℝ → ℝ → ℝ → ℝ) : List ℝ → List ℝ → ℝ
  | x0 :: x1 :: xs, y0 :: y1 :: ys => area x0 y0 x1 y1 + segSum area (x1 :: xs) (y1 :: ys)
  | _, _ => 0

/-- The sum C4 describes, with the linear-x chord intercept (the amended
reading, matching the code). -/
noncomputable def logauc_formula (fp tp : List ℝ) (min_fp : ℝ) : ℝ :=
  segSum (logSegArea (Real.logb 10 (1 / min_fp))) (logrocX fp min_fp) (logrocY fp tp min_fp)

/-- The sum C4 literally states, with the log-x-space intercept. -/
noncomputable def logauc_claimed (fp tp : List ℝ) (min_fp : ℝ) : ℝ :=
  segSum (logSegAreaLogSpace (Real.logb 10 (1 / min_fp))) (logrocX fp min_fp)
    (logrocY fp tp min_fp)

/-! # Theorems -/

/-! ## Lemmas about the codec -/

section CodecProofs

/-- Loading what was just saved rebuilds the very same matrix, as soon as
every stored entry of the original was `true` (the canonical form of a
boolean sparse matrix, which stores only its nonzero positions). -/
theorem load_save_eq {μ : Type} (arr : CsrMatrix) (mi : μ)
    (hbool : ∀ b ∈ arr.data, b = true) :
    load_fprints_arr (save_fprints_arr arr mi) = (arr, mi) := by
  have hdata : List.replicate arr.data.length true = arr.data :=
    (List.eq_replicate_iff.2 ⟨rfl, hbool⟩).symm
  cases arr
  simp only [load_fprints_arr, save_fprints_arr] at *
  simp [hdata]

/-- C1: for every sparse boolean matrix `M` (in canonical form: all stored
entries `true`) and every row index map, loading the archive produced by
`save_fprints_arr` returns a matrix with the same shape and the same
nonzero positions as `M`, and a row index map equal to the saved one,
although the archive stores no explicit data values. -/
theorem claim_C1 {μ : Type} (arr : CsrMatrix) (mi : μ)
    (hbool : ∀ b ∈ arr.data, b = true) :
    (load_fprints_arr (save_fprints_arr arr mi)).1.nrows = arr.nrows ∧
    (load_fprints_arr (save_fprints_arr arr mi)).1.ncols = arr.ncols ∧
    nonzeroPositions (load_fprints_arr (save_fprints_arr arr mi)).1 = nonzeroPositions arr ∧
    (load_fprints_arr (save_fprints_arr arr mi)).2 = mi := by
  have h := load_save_eq arr mi hbool
  rw [h]
  exact ⟨rfl, rfl, rfl, rfl⟩

/-- Witness for C1 at a concrete 2×3 matrix with one stored entry and row
index map `[[0]]`. -/
theorem claim_C1_witness :
    (∀ b ∈ (CsrMatrix.mk 2 3 [true] [1] [0, 1, 1]).data, b = true) ∧
    ((load_fprints_arr (save_fprints_arr (CsrMatrix.mk 2 3 [true] [1] [0, 1, 1])
        ([[0]] : List (List Nat)))).1.nrows = (CsrMatrix.mk 2 3 [true] [1] [0, 1, 1]).nrows ∧
      (load_fprints_arr (save_fprints_arr (CsrMatrix.mk 2 3 [true] [1] [0, 1, 1])
        ([[0]] : List (List Nat)))).1.ncols = (CsrMatrix.mk 2 3 [true] [1] [0, 1, 1]).ncols ∧
      nonzeroPositions (load_fprints_arr (save_fprints_arr (CsrMatrix.mk 2 3 [true] [1] [0, 1, 1])
        ([[0]] : List (List Nat)))).1 = nonzeroPositions (CsrMatrix.mk 2 3 [true] [1] [0, 1, 1]) ∧
      (load_fprints_arr (save_fprints_arr (CsrMatrix.mk 2 3 [true] [1] [0, 1, 1])
        ([[0]] : List (List Nat)))).2 = [[0]]) :=
  ⟨by decide, claim_C1 (CsrMatrix.mk 2 3 [true] [1] [0, 1, 1]) [[0]] (by decide)⟩

end CodecProofs

/-! ## Lemmas about the dict aggregation utilities -/

section DictProofs

variable {α β : Type} [DecidableEq α]

theorem dictLookup_eq_none_of_not_mem {k : α} {l : List (α × β)}
    (h : k ∉ l.map Prod.fst) : dictLookup k l = none := by
  induction l with
  | nil => rfl
  | cons kv rest ih =>
    simp only [List.map_cons, List.mem_cons, not_or] at h
    simp only [dictLookup]
    rw [if_neg (fun he => h.1 he.symm)]
    exact ih h.2

theorem dictLookup_isSome_of_mem {k : α} {l : List (α × β)}
    (h : k ∈ l.map Prod.fst) : (dictLookup k l).isSome := by
  induction l with
  | nil => simp at h
  | cons kv rest ih =>
    simp only [List.map_cons, List.mem_cons] at h
    simp only [dictLookup]
    by_cases he : kv.1 = k
    · rw [if_pos he]; rfl
    · rw [if_neg he]
      exact ih (h.resolve_left (fun hk => he hk.symm))

theorem optAppend_nil {β : Type} (o : Option (List β)) : optAppend o [] = o := by
  cases o <;> simp [optAppend]

theorem optAppend_optAppend {β : Type} (o : Option (List β)) (vs ws : List β) :
    optAppend (optAppend o vs) ws = optAppend o (vs ++ ws) := by
  cases o <;> cases vs <;> cases ws <;> simp [optAppend]

theorem dictLookup_setdefaultAppend (m : List (α × List β)) (k k' : α) (v : β) :
    dictLookup k' (setdefaultAppend m k v) =
      if k' = k then some ((dictLookup k' m).getD [] ++ [v]) else dictLookup k' m := by
  induction m with
  | nil =>
    by_cases h : k' = k
    · subst h
      simp [setdefaultAppend, dictLookup]
    · have hn : ¬k = k' := fun he => h he.symm
      simp [setdefaultAppend, dictLookup, h, hn]
  | cons kv rest ih =>
    obtain ⟨k0, vs⟩ := kv
    by_cases h0 : k0 = k
    · subst h0
      by_cases h1 : k' = k0
      · subst h1
        simp [setdefaultAppend, dictLookup]
      · have hn : ¬k0 = k' := fun he => h1 he.symm
        simp [setdefaultAppend, dictLookup, h1, hn]
    · by_cases h1 : k' = k0
      · subst h1
        simp [setdefaultAppend, dictLookup, h0, fun he : k' = k => (h0 he : False)]
      · have hn : ¬k0 = k' := fun he => h1 he.symm
        simp only [setdefaultAppend, if_neg h0, dictLookup, if_neg hn]
        exact ih

theorem dictLookup_insertDict (m : List (α × List β)) (d : List (α × β)) (k : α)
    (hd : (d.map Prod.fst).Nodup) :
    dictLookup k (insertDict m d) =
      optAppend (dictLookup k m) (dictLookup k d).toList := by
  induction d generalizing m with
  | nil =>
    simp [insertDict, dictLookup, optAppend_nil]
  | cons kv rest ih =>
    obtain ⟨k0, v0⟩ := kv
    simp only [List.map_cons, List.nodup_cons] at hd
    have hstep : insertDict m ((k0, v0) :: rest) = insertDict (setdefaultAppend m k0 v0) rest := rfl
    rw [hstep, ih _ hd.2, dictLookup_setdefaultAppend]
    by_cases hk : k = k0
    · subst hk
      have hrest : dictLookup k rest = none :=
        dictLookup_eq_none_of_not_mem hd.1
      have hcons : dictLookup k ((k, v0) :: rest) = some v0 := by
        simp [dictLookup]
      rw [if_pos rfl, hrest, hcons]
      cases ho : dictLookup k m <;> simp [optAppend]
    · have hcons : dictLookup k ((k0, v0) :: rest) = dictLookup k rest := by
        have hn : ¬k0 = k := fun he => hk he.symm
        simp [dictLookup, hn]
      rw [if_neg hk, hcons]

theorem dictLookup_merge_foldl (ds : List (List (α × β))) (k : α)
    (hnd : ∀ d ∈ ds, (d.map Prod.fst).Nodup) :
    ∀ m : List (α × List β),
      dictLookup k (ds.foldl insertDict m) =
        optAppend (dictLookup k m) (ds.filterMap (fun d => dictLookup k d)) := by
  induction ds with
  | nil =>
    intro m
    simp [optAppend_nil]
  | cons d ds ih =>
    intro m
    have hd := hnd d (List.mem_cons_self d ds)
    have hds : ∀ d' ∈ ds, (d'.map Prod.fst).Nodup :=
      fun d' h' => hnd d' (List.mem_cons_of_mem d h')
    have hfold : (d :: ds).foldl insertDict m = ds.foldl insertDict (insertDict m d) := rfl
    rw [hfold, ih hds (insertDict m d), dictLookup_insertDict m d k hd, optAppend_optAppend]
    have hsplit : (dictLookup k d).toList ++ ds.filterMap (fun d => dictLookup k d) =
        (d :: ds).filterMap (fun d => dictLookup k d) := by
      cases hdk : dictLookup k d <;> simp [List.filterMap_cons, hdk]
    rw [hsplit]

theorem dictLookup_map_values {γ : Type} (m : List (α × List β)) (f : List β → γ) (k : α) :
    dictLookup k (m.map (fun kv => (kv.1, f kv.2))) = (dictLookup k m).map f := by
  induction m with
  | nil => rfl
  | cons kv rest ih =>
    simp only [List.map_cons, dictLookup]
    by_cases h : kv.1 = k
    · rw [if_pos h, if_pos h]; rfl
    · rw [if_neg h, if_neg h]; exact ih

/-- C8: `merge_dicts` maps each key present in at least one input dict to
the list of that key's values in the order the dicts were passed (a dict
missing the key contributes no entry), and `average_dict_values` maps
each such key to the arithmetic mean of that list. -/
theorem claim_C8 (ds : List (List (α × ℚ))) (k : α)
    (hnd : ∀ d ∈ ds, (d.map Prod.fst).Nodup)
    (hmem : ∃ d ∈ ds, k ∈ d.map Prod.fst) :
    dictLookup k (merge_dicts ds) = some (ds.filterMap (fun d => dictLookup k d)) ∧
    dictLookup k (average_dict_values ds) =
      some (npMean (ds.filterMap (fun d => dictLookup k d))) := by
  obtain ⟨d, hdmem, hkmem⟩ := hmem
  have hsome := dictLookup_isSome_of_mem hkmem
  obtain ⟨v, hv⟩ := Option.isSome_iff_exists.1 hsome
  have hne : ds.filterMap (fun d => dictLookup k d) ≠ [] := by
    intro hnil
    have : ∀ d' ∈ ds, dictLookup k d' = none := List.filterMap_eq_nil_iff.1 hnil
    rw [this d hdmem] at hv
    exact Option.noConfusion hv
  have hmerge : dictLookup k (merge_dicts ds) =
      some (ds.filterMap (fun d => dictLookup k d)) := by
    have h := dictLookup_merge_foldl ds k hnd []
    rw [merge_dicts, h]
    cases hvs : ds.filterMap (fun d => dictLookup k d) with
    | nil => exact absurd hvs hne
    | cons w ws => simp [dictLookup, optAppend]
  refine ⟨hmerge, ?_⟩
  rw [average_dict_values, dictLookup_map_values, hmerge]
  rfl

/-- Witness for C8 at the example of the claim: two dicts with keys
`0 ("a")`, `1 ("b")`, `2 ("c")`; key `0` gets value list `[1, 3]` and
average `2`. -/
theorem claim_C8_witness :
    (∀ d ∈ [[((0 : ℕ), (1 : ℚ)), (1, 2)], [(0, 3), (2, 4)]], (d.map Prod.fst).Nodup) ∧
    (∃ d ∈ [[((0 : ℕ), (1 : ℚ)), (1, 2)], [(0, 3), (2, 4)]], 0 ∈ d.map Prod.fst) ∧
    (dictLookup 0 (merge_dicts [[((0 : ℕ), (1 : ℚ)), (1, 2)], [(0, 3), (2, 4)]]) =
        some ([[((0 : ℕ), (1 : ℚ)), (1, 2)], [(0, 3), (2, 4)]].filterMap
          (fun d => dictLookup 0 d)) ∧
      dictLookup 0 (average_dict_values [[((0 : ℕ), (1 : ℚ)), (1, 2)], [(0, 3), (2, 4)]]) =
        some (npMean ([[((0 : ℕ), (1 : ℚ)), (1, 2)], [(0, 3), (2, 4)]].filterMap
          (fun d => dictLookup 0 d)))) ∧
    [[((0 : ℕ), (1 : ℚ)), (1, 2)], [(0, 3), (2, 4)]].filterMap
      (fun d => dictLookup 0 d) = [1, 3] ∧
    npMean [1, 3] = 2 :=
  ⟨by decide, by decide,
    claim_C8 [[((0 : ℕ), (1 : ℚ)), (1, 2)], [(0, 3), (2, 4)]] 0 (by decide) (by decide),
    by simp [dictLookup], by norm_num [npMean]⟩

end DictProofs

/-! ## Lemmas about the array builders -/

section ArrayBuilderProofs

variable {α δ : Type} [DecidableEq α]

theorem dictLookup_of_mem_nodup {k : α} {β' : Type} {v : β'} {l : List (α × β')}
    (hmem : (k, v) ∈ l) (hnd : (l.map Prod.fst).Nodup) : dictLookup k l = some v := by
  induction l with
  | nil => simp at hmem
  | cons kv rest ih =>
    obtain ⟨k0, v0⟩ := kv
    simp only [List.map_cons, List.nodup_cons] at hnd
    rcases List.mem_cons.1 hmem with heq | hmem'
    · obtain ⟨h1, h2⟩ := Prod.mk.injEq .. ▸ heq
      subst h1
      subst h2
      simp [dictLookup]
    · have hk : k0 ≠ k := by
        intro he
        subst he
        exact hnd.1 (List.mem_map.2 ⟨(k0, v), hmem', rfl⟩)
      simp only [dictLookup, if_neg hk]
      exact ih hmem' hnd.2

theorem molIndex_eq_none {x : α} {l : List α} (h : x ∉ l) : molIndex l x = none := by
  induction l with
  | nil => rfl
  | cons y rest ih =>
    have hy : y ≠ x := fun he => h (he ▸ List.mem_cons_self y rest)
    have hr : x ∉ rest := fun hm => h (List.mem_cons_of_mem y hm)
    simp [molIndex, hy, ih hr]

theorem optTraverse_eq_none {γ β' : Type} (f : γ → Option β') {a : γ} {l : List γ}
    (hmem : a ∈ l) (hfail : f a = none) : optTraverse f l = none := by
  induction l with
  | nil => simp at hmem
  | cons b rest ih =>
    rcases List.mem_cons.1 hmem with rfl | hmem'
    · simp [optTraverse, hfail]
    · rw [optTraverse, ih hmem']
      cases f b <;> rfl

theorem pySorted_mem {γ : Type} [LinearOrder γ] {a : γ} {l : List γ} :
    a ∈ pySorted l ↔ a ∈ l := by
  rw [pySorted, (List.perm_insertionSort _ _).mem_iff, List.mem_dedup]

/-- C7: `targets_to_array` fails with the model of a `KeyError` as soon
as some target's `cids` contain a molecule identifier absent from the
molecule list; the bad row is never silently dropped. -/
theorem claim_C7 {α' δ' : Type} [LinearOrder α']
    (targets_dict : List (α' × SetValue α' δ')) (mol_list : List α')
    (hnd : (targets_dict.map Prod.fst).Nodup)
    (hbad : ∃ kv ∈ targets_dict, ∃ c ∈ kv.2.cids, c ∉ mol_list) :
    targets_to_array targets_dict mol_list = none := by
  obtain ⟨kv, hmem, c, hc, hcnot⟩ := hbad
  have hkey : kv.1 ∈ pySorted (targets_dict.map Prod.fst) :=
    pySorted_mem.2 (List.mem_map.2 ⟨kv, hmem, rfl⟩)
  have hlook : dictLookup kv.1 targets_dict = some kv.2 :=
    dictLookup_of_mem_nodup hmem hnd
  have hinner : optTraverse (molIndex mol_list)
      ((dictLookup kv.1 targets_dict).elim [] (fun sv => sv.cids)) = none := by
    rw [hlook]
    exact optTraverse_eq_none _ hc (molIndex_eq_none hcnot)
  have houter : optTraverse (fun key =>
      optTraverse (molIndex mol_list)
        ((dictLookup key targets_dict).elim [] (fun sv => sv.cids)))
      (pySorted (targets_dict.map Prod.fst)) = none :=
    optTraverse_eq_none _ hkey hinner
  simp only [targets_to_array]
  rw [houter]
  rfl

/-- Witness for C7: a single target whose `cids` mention molecule `5`,
with molecule list `[9]`. -/
theorem claim_C7_witness :
    (([((7 : ℕ), SetValue.mk (0 : ℕ) [5] 0)].map Prod.fst).Nodup) ∧
    (∃ kv ∈ [((7 : ℕ), SetValue.mk (0 : ℕ) [5] 0)], ∃ c ∈ kv.2.cids, c ∉ [(9 : ℕ)]) ∧
    targets_to_array [((7 : ℕ), SetValue.mk (0 : ℕ) [5] 0)] [9] = none :=
  ⟨by decide, by decide,
    claim_C7 [((7 : ℕ), SetValue.mk (0 : ℕ) [5] 0)] [9] (by decide) (by decide)⟩

theorem flatRecords_nil (d : List (α × List NativeTuple)) : flatRecords d [] = [] := rfl

theorem flatRecords_cons (d : List (α × List NativeTuple)) (n : α) (rest : List α) :
    flatRecords d (n :: rest) = lookupRecords d n ++ flatRecords d rest := by
  simp [flatRecords]

theorem fpPairs_cons (o : Nat) (nt : NativeTuple) (nts : List NativeTuple) :
    fpPairs o (nt :: nts) = nt.indices.map (fun j => (o, j)) ++ fpPairs (o + 1) nts := by
  simp [fpPairs, native_tuple_to_indices, List.length_cons, List.range'_succ]

theorem fpPairs_bounds (nts : List NativeTuple) :
    ∀ (o : Nat), ∀ p ∈ fpPairs o nts, o ≤ p.1 ∧ p.1 < o + nts.length := by
  induction nts with
  | nil =>
    intro o p hp
    simp [fpPairs] at hp
  | cons nt nts ih =>
    intro o p hp
    rw [fpPairs_cons] at hp
    rcases List.mem_append.1 hp with h | h
    · obtain ⟨j, _, rfl⟩ := List.mem_map.1 h
      simp only [List.length_cons]
      omega
    · have hb := ih (o + 1) p h
      simp only [List.length_cons]
      omega

theorem fpPairs_filter (nts : List NativeTuple) :
    ∀ (o m t : Nat), m < nts.length → t = o + m →
      ((fpPairs o nts).filter (fun p => decide (p.1 = t))).map Prod.snd =
        (nts.getD m default).indices := by
  induction nts with
  | nil =>
    intro o m t hm _
    simp at hm
  | cons nt nts ih =>
    intro o m t hm ht
    rw [fpPairs_cons, List.filter_append, List.map_append]
    cases m with
    | zero =>
      have h1 : (nt.indices.map (fun j => (o, j))).filter (fun p => decide (p.1 = t)) =
          nt.indices.map (fun j => (o, j)) := by
        rw [List.filter_eq_self]
        intro p hp
        obtain ⟨j, _, rfl⟩ := List.mem_map.1 hp
        simp only [decide_eq_true_eq]
        omega
      have h2 : (fpPairs (o + 1) nts).filter (fun p => decide (p.1 = t)) = [] := by
        rw [List.filter_eq_nil_iff]
        intro p hp
        have hb := fpPairs_bounds nts (o + 1) p hp
        simp only [decide_eq_true_eq]
        omega
      rw [h1, h2, List.getD_cons_zero]
      simp [List.map_map, Function.comp]
    | succ m' =>
      have h1 : (nt.indices.map (fun j => (o, j))).filter (fun p => decide (p.1 = t)) = [] := by
        rw [List.filter_eq_nil_iff]
        intro p hp
        obtain ⟨j, _, rfl⟩ := List.mem_map.1 hp
        simp only [decide_eq_true_eq]
        omega
      have h2 := ih (o + 1) m' t (by simpa using hm) (by omega)
      rw [h1, h2, List.getD_cons_succ]
      simp

theorem fpPairs_ne_nil : ∀ (o : Nat) (nts : List NativeTuple),
    (∃ nt ∈ nts, nt.indices ≠ []) → fpPairs o nts ≠ [] := by
  intro o nts
  induction nts generalizing o with
  | nil =>
    intro h
    simp at h
  | cons nt nts ih =>
    intro h hnil
    obtain ⟨nt', hmem, hne⟩ := h
    rw [fpPairs_cons] at hnil
    have h1 := List.append_eq_nil.1 hnil
    rcases List.mem_cons.1 hmem with rfl | hmem'
    · rw [List.map_eq_nil_iff] at h1
      exact hne h1.1
    · exact ih (o + 1) ⟨nt', hmem', hne⟩ h1.2

theorem mtaLoop_sound (d : List (α × List NativeTuple)) :
    ∀ (names : List α) (k o : Nat) (mi : List (Nat × List Nat))
      (coords : List (Nat × Nat)) (tot : Nat),
      mtaLoop d k o names = some (mi, coords, tot) →
      tot = o + (flatRecords d names).length ∧
      mi.map Prod.fst = List.range' k names.length ∧
      mi.flatMap Prod.snd = List.range' o (flatRecords d names).length ∧
      mi.map (fun e => e.2.length) = names.map (fun n => (lookupRecords d n).length) ∧
      (∀ j (hj : j < mi.length), (mi.get ⟨j, hj⟩).2 =
          List.range' (o + ((mi.take j).map (fun e => e.2.length)).sum)
            (mi.get ⟨j, hj⟩).2.length) ∧
      (∀ m t, m < (flatRecords d names).length → t = o + m →
          ((coords.filter (fun p => decide (p.1 = t))).map Prod.snd) =
            ((flatRecords d names).getD m default).indices) ∧
      (∀ p ∈ coords, o ≤ p.1 ∧ p.1 < o + (flatRecords d names).length) := by
  intro names
  induction names with
  | nil =>
    intro k o mi coords tot h
    simp only [mtaLoop, Option.some.injEq, Prod.mk.injEq] at h
    obtain ⟨h1, h2, h3⟩ := h
    subst h1
    subst h2
    subst h3
    refine ⟨by simp [flatRecords_nil], by simp, by simp [flatRecords_nil], by simp, ?_, ?_, ?_⟩
    · intro j hj
      simp at hj
    · intro m t hm _
      simp [flatRecords_nil] at hm
    · intro p hp
      simp at hp
  | cons name rest ih =>
    intro k o mi coords tot h
    simp only [mtaLoop] at h
    by_cases hp : fpPairs o (lookupRecords d name) = []
    · rw [if_pos hp] at h
      cases h
    · rw [if_neg hp] at h
      obtain ⟨r, hr, hfr⟩ := Option.map_eq_some'.1 h
      obtain ⟨mi', coords', tot'⟩ := r
      simp only [Prod.mk.injEq] at hfr
      obtain ⟨hmi, hcoords, htot⟩ := hfr
      subst hmi
      subst hcoords
      subst htot
      obtain ⟨h1, h2, h3, h4, h5, h6, h7⟩ :=
        ih (k + 1) (o + (lookupRecords d name).length) mi' coords' tot' hr
      have hflat := flatRecords_cons d name rest
      have hflatlen : (flatRecords d (name :: rest)).length =
          (lookupRecords d name).length + (flatRecords d rest).length := by
        rw [hflat, List.length_append]
      refine ⟨?_, ?_, ?_, ?_, ?_, ?_, ?_⟩
      · rw [hflatlen]
        omega
      · simp only [List.map_cons, h2, List.length_cons]
        rw [List.range'_succ]
      · simp only [List.flatMap_cons, h3, hflatlen]
        have hap := List.range'_append o (lookupRecords d name).length
          (flatRecords d rest).length 1
        simp only [one_mul] at hap
        rw [hap, Nat.add_comm ((flatRecords d rest).length) ((lookupRecords d name).length)]
      · simp [h4, List.length_range']
      · intro j hj
        cases j with
        | zero =>
          simp [List.length_range']
        | succ j' =>
          have hj' : j' < mi'.length := by
            simpa using hj
          have h5' := h5 j' hj'
          simp only [List.get_cons_succ, List.take_succ_cons, List.map_cons, List.sum_cons,
            List.length_range']
          rw [← Nat.add_assoc]
          exact h5'
      · intro m t hm ht
        rw [List.filter_append, List.map_append]
        rcases Nat.lt_or_ge m (lookupRecords d name).length with hlt | hge
        · have hfp := fpPairs_filter (lookupRecords d name) o m t hlt ht
          have hrest : coords'.filter (fun p => decide (p.1 = t)) = [] := by
            rw [List.filter_eq_nil_iff]
            intro p hp'
            have hb := h7 p hp'
            simp only [decide_eq_true_eq]
            omega
          rw [hfp, hrest, hflat, List.getD_append _ _ _ m hlt]
          simp
        · have hfp : (fpPairs o (lookupRecords d name)).filter
              (fun p => decide (p.1 = t)) = [] := by
            rw [List.filter_eq_nil_iff]
            intro p hp'
            have hb := fpPairs_bounds (lookupRecords d name) o p hp'
            simp only [decide_eq_true_eq]
            omega
          have hm' : m - (lookupRecords d name).length < (flatRecords d rest).length := by
            rw [hflatlen] at hm
            omega
          have h6' := h6 (m - (lookupRecords d name).length) t hm' (by omega)
          rw [hfp, h6', hflat, List.getD_append_right _ _ _ m hge]
          simp
      · intro p hp'
        rcases List.mem_append.1 hp' with hin | hin
        · have hb := fpPairs_bounds (lookupRecords d name) o p hin
          rw [hflatlen]
          omega
        · have hb := h7 p hin
          rw [hflatlen]
          omega

theorem mtaLoop_isSome (d : List (α × List NativeTuple)) :
    ∀ (names : List α) (k o : Nat),
      (∀ n ∈ names, ∃ nt ∈ lookupRecords d n, nt.indices ≠ []) →
      ∃ r, mtaLoop d k o names = some r := by
  intro names
  induction names with
  | nil =>
    intro k o _
    exact ⟨([], [], o), rfl⟩
  | cons name rest ih =>
    intro k o hbits
    have hp : fpPairs o (lookupRecords d name) ≠ [] :=
      fpPairs_ne_nil o _ (hbits name (List.mem_cons_self name rest))
    obtain ⟨r, hr⟩ := ih (k + 1) (o + (lookupRecords d name).length)
      (fun n hn => hbits n (List.mem_cons_of_mem name hn))
    refine ⟨((k, List.range' o (lookupRecords d name).length) :: r.1,
      fpPairs o (lookupRecords d name) ++ r.2.1, r.2.2), ?_⟩
    simp only [mtaLoop]
    rw [if_neg hp, hr]
    rfl

/-- C9: whenever `molecules_to_array` succeeds, the returned row index
map assigns position `k` of the molecule list the consecutive range of
row indices starting where position `k - 1`'s range ends (position 0
starting at 0), the ranges in list order partition `[0, num_rows)`, and
their cardinalities sum to the total fingerprint row count. -/
theorem claim_C9 {α' : Type} [DecidableEq α'] (mol_list_dict : List (α' × List NativeTuple))
    (mol_list : List α') (arr : CooMat) (mi : List (Nat × List Nat))
    (h : molecules_to_array mol_list_dict mol_list = some (arr, mi)) :
    mi.map Prod.fst = List.range mol_list.length ∧
    (∀ j (hj : j < mi.length), (mi.get ⟨j, hj⟩).2 =
        List.range' (((mi.take j).map (fun e => e.2.length)).sum) (mi.get ⟨j, hj⟩).2.length) ∧
    mi.flatMap Prod.snd = List.range arr.nrows ∧
    (mi.map (fun e => e.2.length)).sum = arr.nrows := by
  rw [molecules_to_array.eq_def] at h
  by_cases hfin : (mol_list_dict.map Prod.fst).toFinset = mol_list.toFinset
  case neg =>
    rw [if_neg hfin] at h
    cases h
  rw [if_pos hfin] at h
  cases mol_list_dict with
  | nil => cases h
  | cons kv dRest =>
    obtain ⟨k0, ts⟩ := kv
    cases ts with
    | nil => cases h
    | cons t0 ts' =>
      obtain ⟨r, hr, hfr⟩ := Option.map_eq_some'.1 h
      obtain ⟨mi'', coords'', tot''⟩ := r
      obtain ⟨nr, nc, cs⟩ := arr
      simp only [Prod.mk.injEq, CooMat.mk.injEq] at hfr
      obtain ⟨⟨hnr, hnc, hcs⟩, hmi⟩ := hfr
      subst hnr
      subst hnc
      subst hcs
      subst hmi
      obtain ⟨h1, h2, h3, h4, h5, h6, h7⟩ :=
        mtaLoop_sound ((k0, t0 :: ts') :: dRest) mol_list 0 0 mi'' coords'' tot'' hr
      refine ⟨?_, ?_, ?_, ?_⟩
      · rw [List.range_eq_range']
        exact h2
      · simp only [Nat.zero_add] at h5
        exact h5
      · rw [List.range_eq_range', h1, Nat.zero_add]
        exact h3
      · rw [h4, h1, Nat.zero_add]
        simp [flatRecords, List.length_flatMap, Function.comp_def]

/-- Witness for C9 at a one-molecule input with a single two-bit record. -/
theorem claim_C9_witness :
    molecules_to_array [((0 : ℕ), [NativeTuple.mk 4 [0, 2]])] [0] =
        some (CooMat.mk 1 4 [(0, 0), (0, 2)], [(0, [0])]) ∧
    (List.map Prod.fst ([(0, [0])] : List (Nat × List Nat)) =
        List.range ([(0 : ℕ)] : List ℕ).length ∧
      (∀ j (hj : j < ([(0, [0])] : List (Nat × List Nat)).length),
          (([(0, [0])] : List (Nat × List Nat)).get ⟨j, hj⟩).2 =
            List.range'
              (((([(0, [0])] : List (Nat × List Nat)).take j).map (fun e => e.2.length)).sum)
              (([(0, [0])] : List (Nat × List Nat)).get ⟨j, hj⟩).2.length) ∧
      ([(0, [0])] : List (Nat × List Nat)).flatMap Prod.snd =
        List.range (CooMat.mk 1 4 [(0, 0), (0, 2)]).nrows ∧
      (([(0, [0])] : List (Nat × List Nat)).map (fun e => e.2.length)).sum =
        (CooMat.mk 1 4 [(0, 0), (0, 2)]).nrows) :=
  ⟨by decide,
    claim_C9 [((0 : ℕ), [NativeTuple.mk 4 [0, 2]])] [0]
      (CooMat.mk 1 4 [(0, 0), (0, 2)]) [(0, [0])] (by decide)⟩

/-- Counterexample to C6 as stated: for `mol_list_dict = {0: []}` and
`mol_list = [0]` the molecule identifier sets are equal, yet
`molecules_to_array` does not return a matrix at all (the Python code
raises an `IndexError` reading the first molecule's first record — there
is none — and would raise a `ValueError` unpacking the empty coordinate
zip), refuting "when the sets are equal, the returned matrix has ...". -/
theorem claim_C6_counterexample :
    (([((0 : ℕ), ([] : List NativeTuple))].map Prod.fst).toFinset =
        ([0] : List ℕ).toFinset) ∧
    molecules_to_array [((0 : ℕ), ([] : List NativeTuple))] [0] = none :=
  ⟨by decide, by decide⟩

/-- C6 (amended): `molecules_to_array` fails whenever the key set of the
mapping differs from the molecule list's set; when the sets are equal,
the molecule list is nonempty and every molecule owns at least one
record with at least one set bit, it returns a matrix with exactly
`sum(records per molecule)` rows and `bit_width` columns — the bit width
read off the first dict entry's first record — and each record's set bit
positions are exactly the column entries of its row. -/
theorem claim_C6 {α' : Type} [DecidableEq α'] (mol_list_dict : List (α' × List NativeTuple))
    (mol_list : List α') :
    ((mol_list_dict.map Prod.fst).toFinset ≠ mol_list.toFinset →
      molecules_to_array mol_list_dict mol_list = none) ∧
    (mol_list ≠ [] →
      (mol_list_dict.map Prod.fst).toFinset = mol_list.toFinset →
      (∀ n ∈ mol_list, ∃ nt ∈ lookupRecords mol_list_dict n, nt.indices ≠ []) →
      ∃ arr mi, molecules_to_array mol_list_dict mol_list = some (arr, mi) ∧
        arr.nrows = (mol_list.map (fun n => (lookupRecords mol_list_dict n).length)).sum ∧
        (∃ k0 ts dRest, mol_list_dict = (k0, ts) :: dRest ∧
          arr.ncols = native_tuple_bits (ts.getD 0 default)) ∧
        (∀ m, m < arr.nrows →
          ((arr.coords.filter (fun p => decide (p.1 = m))).map Prod.snd) =
            ((flatRecords mol_list_dict mol_list).getD m default).indices)) := by
  constructor
  · intro hne
    rw [molecules_to_array.eq_def, if_neg hne]
  · intro hne hkeys hbits
    obtain ⟨x, xs, rfl⟩ : ∃ x xs, mol_list = x :: xs := by
      cases mol_list with
      | nil => exact absurd rfl hne
      | cons x xs => exact ⟨x, xs, rfl⟩
    have hxmem : x ∈ mol_list_dict.map Prod.fst := by
      have h1 : x ∈ (x :: xs).toFinset := List.mem_toFinset.2 (List.mem_cons_self x xs)
      rw [← hkeys] at h1
      exact List.mem_toFinset.1 h1
    cases mol_list_dict with
    | nil => simp at hxmem
    | cons kv0 dRest =>
      obtain ⟨k0, ts⟩ := kv0
      have hk0mem : k0 ∈ (x :: xs) := by
        have h1 : k0 ∈ (((k0, ts) :: dRest).map Prod.fst) := by simp
        have h2 := List.mem_toFinset.2 h1
        rw [hkeys] at h2
        exact List.mem_toFinset.1 h2
      have hlook : lookupRecords ((k0, ts) :: dRest) k0 = ts := by
        simp [lookupRecords, dictLookup]
      obtain ⟨nt0, hnt0, hne0⟩ := hbits k0 hk0mem
      rw [hlook] at hnt0
      obtain ⟨t0, ts', rfl⟩ : ∃ t0 ts', ts = t0 :: ts' := by
        cases ts with
        | nil => simp at hnt0
        | cons a b => exact ⟨a, b, rfl⟩
      obtain ⟨r, hr⟩ := mtaLoop_isSome ((k0, t0 :: ts') :: dRest) (x :: xs) 0 0 hbits
      obtain ⟨mi, coords, tot⟩ := r
      obtain ⟨h1, h2, h3, h4, h5, h6, h7⟩ :=
        mtaLoop_sound ((k0, t0 :: ts') :: dRest) (x :: xs) 0 0 mi coords tot hr
      refine ⟨⟨tot, native_tuple_bits t0, coords⟩, mi, ?_, ?_, ?_, ?_⟩
      · simp only [molecules_to_array]
        rw [if_pos hkeys, hr]
        rfl
      · show tot = _
        rw [h1, Nat.zero_add]
        simp [flatRecords, List.length_flatMap, Function.comp_def]
      · exact ⟨k0, t0 :: ts', dRest, rfl, rfl⟩
      · intro m hm
        have hm' : m < (flatRecords ((k0, t0 :: ts') :: dRest) (x :: xs)).length := by
          have hmtot : m < tot := hm
          omega
        exact h6 m m hm' (by omega)

/-- Witness for the amended C6 at a one-molecule input. -/
theorem claim_C6_witness :
    (([(0 : ℕ)] : List ℕ) ≠ []) ∧
    (([((0 : ℕ), [NativeTuple.mk 8 [1, 3]])].map Prod.fst).toFinset =
        ([0] : List ℕ).toFinset) ∧
    (∀ n ∈ ([0] : List ℕ),
      ∃ nt ∈ lookupRecords [((0 : ℕ), [NativeTuple.mk 8 [1, 3]])] n, nt.indices ≠ []) ∧
    (∃ arr mi, molecules_to_array [((0 : ℕ), [NativeTuple.mk 8 [1, 3]])] [0] =
        some (arr, mi) ∧
      arr.nrows = (([0] : List ℕ).map
        (fun n => (lookupRecords [((0 : ℕ), [NativeTuple.mk 8 [1, 3]])] n).length)).sum ∧
      (∃ k0 ts dRest, [((0 : ℕ), [NativeTuple.mk 8 [1, 3]])] = (k0, ts) :: dRest ∧
        arr.ncols = native_tuple_bits (ts.getD 0 default)) ∧
      (∀ m, m < arr.nrows →
        ((arr.coords.filter (fun p => decide (p.1 = m))).map Prod.snd) =
          ((flatRecords [((0 : ℕ), [NativeTuple.mk 8 [1, 3]])] [0]).getD m default).indices)) :=
  ⟨by decide, by decide, by decide,
    (claim_C6 [((0 : ℕ), [NativeTuple.mk 8 [1, 3]])] [0]).2
      (by decide) (by decide) (by decide)⟩

end ArrayBuilderProofs

/-! ## Lemmas about the fold splitter -/

section FoldSplitterProofs

variable {α' β' δ' : Type} [LinearOrder α'] [Inhabited α']

theorem whereVal_mem {row : List Int} {v : Int} {j : Nat} :
    j ∈ whereVal row v ↔ j < row.length ∧ row.getD j 0 = v := by
  simp [whereVal, List.mem_filter, List.mem_range]

omit [LinearOrder α'] in
theorem testMolsOfRow_mem {mol_list : List α'} {mask : List (List Int)} {i : Nat} {c : α'} :
    c ∈ testMolsOfRow mol_list mask i ↔
      ∃ j, j < (mask.getD i []).length ∧ (mask.getD i []).getD j 0 = 1 ∧
        mol_list.getD j default = c := by
  rw [testMolsOfRow, List.mem_map]
  constructor
  · rintro ⟨j, hj, rfl⟩
    obtain ⟨h1, h2⟩ := whereVal_mem.1 hj
    exact ⟨j, h1, h2, rfl⟩
  · rintro ⟨j, h1, h2, rfl⟩
    exact ⟨j, whereVal_mem.2 ⟨h1, h2⟩, rfl⟩

theorem pySorted_sorted {γ : Type} [LinearOrder γ] (l : List γ) :
    (pySorted l).Sorted (· ≤ ·) :=
  List.sorted_insertionSort _ _

theorem pySorted_nodup {γ : Type} [LinearOrder γ] (l : List γ) : (pySorted l).Nodup :=
  (List.perm_insertionSort _ _).nodup_iff.2 l.nodup_dedup

/-- C3: for each target key, `train_test_dicts_from_mask` returns a test
Target whose `cids` are the sorted intersection of the original `cids`
with the molecules at mask value 1 of that target's row, and a train
Target whose `cids` are the sorted difference of the original `cids`
minus those test molecules (not restricted to mask value -1), both
preserving the original name and description. -/
theorem claim_C3 (mol_list_dict : α' → β') (mol_list : List α')
    (target_dict : α' → SetValue α' δ') (target_list : List α')
    (mask : List (List Int)) (i : Nat) (hi : i < target_list.length) :
    ∃ svTest svTrain : SetValue α' δ',
      ((train_test_dicts_from_mask mol_list_dict mol_list target_dict target_list
          mask).2.2.2)[i]? = some (target_list.get ⟨i, hi⟩, svTest) ∧
      ((train_test_dicts_from_mask mol_list_dict mol_list target_dict target_list
          mask).2.1)[i]? = some (target_list.get ⟨i, hi⟩, svTrain) ∧
      svTest.name = (target_dict (target_list.get ⟨i, hi⟩)).name ∧
      svTest.description = (target_dict (target_list.get ⟨i, hi⟩)).description ∧
      svTrain.name = (target_dict (target_list.get ⟨i, hi⟩)).name ∧
      svTrain.description = (target_dict (target_list.get ⟨i, hi⟩)).description ∧
      svTest.cids.Sorted (· ≤ ·) ∧ svTest.cids.Nodup ∧
      svTrain.cids.Sorted (· ≤ ·) ∧ svTrain.cids.Nodup ∧
      (∀ c, c ∈ svTest.cids ↔
        c ∈ (target_dict (target_list.get ⟨i, hi⟩)).cids ∧
          ∃ j, j < (mask.getD i []).length ∧ (mask.getD i []).getD j 0 = 1 ∧
            mol_list.getD j default = c) ∧
      (∀ c, c ∈ svTrain.cids ↔
        c ∈ (target_dict (target_list.get ⟨i, hi⟩)).cids ∧
          ¬∃ j, j < (mask.getD i []).length ∧ (mask.getD i []).getD j 0 = 1 ∧
            mol_list.getD j default = c) := by
  refine ⟨SetValue.mk (target_dict (target_list.get ⟨i, hi⟩)).name
      (pySorted ((target_dict (target_list.get ⟨i, hi⟩)).cids.filter
        (fun c => decide (c ∈ testMolsOfRow mol_list mask i))))
      (target_dict (target_list.get ⟨i, hi⟩)).description,
    SetValue.mk (target_dict (target_list.get ⟨i, hi⟩)).name
      (pySorted ((target_dict (target_list.get ⟨i, hi⟩)).cids.filter
        (fun c => decide (c ∉ testMolsOfRow mol_list mask i))))
      (target_dict (target_list.get ⟨i, hi⟩)).description,
    ?_, ?_, rfl, rfl, rfl, rfl, ?_, ?_, ?_, ?_, ?_, ?_⟩
  · simp only [train_test_dicts_from_mask, List.getElem?_map, List.getElem?_enum,
      List.getElem?_eq_getElem hi, Option.map_some', List.get_eq_getElem]
  · simp only [train_test_dicts_from_mask, List.getElem?_map, List.getElem?_enum,
      List.getElem?_eq_getElem hi, Option.map_some', List.get_eq_getElem]
  · exact pySorted_sorted _
  · exact pySorted_nodup _
  · exact pySorted_sorted _
  · exact pySorted_nodup _
  · intro c
    show c ∈ pySorted _ ↔ _
    rw [pySorted_mem, List.mem_filter, decide_eq_true_eq, testMolsOfRow_mem]
  · intro c
    show c ∈ pySorted _ ↔ _
    rw [pySorted_mem, List.mem_filter, decide_eq_true_eq]
    exact and_congr_right (fun _ => not_congr testMolsOfRow_mem)

/-- Witness for C3 at the spec's example: mask row `[1, -1, 0, 1]`,
target `cids = [0, 1, 3]` (the molecules `mol0`, `mol1`, `mol3`): the
test positives come out `[0, 3]` and the train positives `[1]`. -/
theorem claim_C3_witness :
    (0 < ([5] : List ℕ).length) ∧
    (∃ svTest svTrain : SetValue ℕ ℕ,
      ((train_test_dicts_from_mask (fun _ => (0 : ℕ)) [0, 1, 2, 3]
          (fun _ => SetValue.mk (9 : ℕ) [0, 1, 3] 9) [5] [[1, -1, 0, 1]]).2.2.2)[0]? =
          some (5, svTest) ∧
      ((train_test_dicts_from_mask (fun _ => (0 : ℕ)) [0, 1, 2, 3]
          (fun _ => SetValue.mk (9 : ℕ) [0, 1, 3] 9) [5] [[1, -1, 0, 1]]).2.1)[0]? =
          some (5, svTrain) ∧
      svTest.name = 9 ∧ svTest.description = 9 ∧
      svTrain.name = 9 ∧ svTrain.description = 9 ∧
      svTest.cids.Sorted (· ≤ ·) ∧ svTest.cids.Nodup ∧
      svTrain.cids.Sorted (· ≤ ·) ∧ svTrain.cids.Nodup ∧
      (∀ c, c ∈ svTest.cids ↔
        c ∈ [0, 1, 3] ∧
          ∃ j, j < 4 ∧ ([1, -1, 0, 1] : List Int).getD j 0 = 1 ∧
            ([0, 1, 2, 3] : List ℕ).getD j default = c) ∧
      (∀ c, c ∈ svTrain.cids ↔
        c ∈ [0, 1, 3] ∧
          ¬∃ j, j < 4 ∧ ([1, -1, 0, 1] : List Int).getD j 0 = 1 ∧
            ([0, 1, 2, 3] : List ℕ).getD j default = c)) ∧
    ((train_test_dicts_from_mask (fun _ => (0 : ℕ)) [0, 1, 2, 3]
        (fun _ => SetValue.mk (9 : ℕ) [0, 1, 3] 9) [5] [[1, -1, 0, 1]]).2.2.2 =
      [(5, SetValue.mk 9 [0, 3] 9)]) ∧
    ((train_test_dicts_from_mask (fun _ => (0 : ℕ)) [0, 1, 2, 3]
        (fun _ => SetValue.mk (9 : ℕ) [0, 1, 3] 9) [5] [[1, -1, 0, 1]]).2.1 =
      [(5, SetValue.mk 9 [1] 9)]) :=
  ⟨by decide,
    claim_C3 (fun _ => (0 : ℕ)) [0, 1, 2, 3]
      (fun _ => SetValue.mk (9 : ℕ) [0, 1, 3] 9) [5] [[1, -1, 0, 1]] 0 (by decide),
    by decide, by decide⟩

/-- C10: a molecule whose mask column holds neither 1 nor -1 (all
entries 0) is absent from both returned fingerprint dicts, while every
target key still appears in both returned target dicts. -/
theorem claim_C10 (mol_list_dict : α' → β') (mol_list : List α')
    (target_dict : α' → SetValue α' δ') (target_list : List α')
    (mask : List (List Int)) (j : Nat) (hj : j < mol_list.length)
    (hnd : mol_list.Nodup)
    (hzero : ∀ row ∈ mask, row.getD j 0 = 0) :
    (mol_list.get ⟨j, hj⟩) ∉
      ((train_test_dicts_from_mask mol_list_dict mol_list target_dict target_list
        mask).1.map Prod.fst) ∧
    (mol_list.get ⟨j, hj⟩) ∉
      ((train_test_dicts_from_mask mol_list_dict mol_list target_dict target_list
        mask).2.2.1.map Prod.fst) ∧
    ((train_test_dicts_from_mask mol_list_dict mol_list target_dict target_list
        mask).2.1.map Prod.fst) = target_list ∧
    ((train_test_dicts_from_mask mol_list_dict mol_list target_dict target_list
        mask).2.2.2.map Prod.fst) = target_list := by
  have hkey : ∀ v : Int, v ≠ 0 →
      (mol_list.get ⟨j, hj⟩) ∉
        (((mol_list.enum.filter (fun p => anyRowHas mask v p.1)).map
          (fun p => (p.2, mol_list_dict p.2))).map Prod.fst) := by
    intro v hv hmem
    rw [List.map_map] at hmem
    obtain ⟨p, hp, hfst⟩ := List.mem_map.1 hmem
    have hpe := List.mem_filter.1 hp
    obtain ⟨i, x⟩ := p
    obtain ⟨hilen, hxi⟩ := List.mem_enum hpe.1
    have hx : x = mol_list.get ⟨j, hj⟩ := hfst
    have hgj : mol_list.get ⟨j, hj⟩ = mol_list[j] := List.get_eq_getElem mol_list ⟨j, hj⟩
    have hij : i = j := by
      have h1 : mol_list[i] = mol_list[j] := hxi.symm.trans (hx.trans hgj)
      exact (hnd.getElem_inj_iff).1 h1
    subst hij
    have hany : anyRowHas mask v i = true := hpe.2
    rw [anyRowHas, List.any_eq_true] at hany
    obtain ⟨row, hrow, hdec⟩ := hany
    rw [decide_eq_true_eq] at hdec
    rw [hzero row hrow] at hdec
    exact hv hdec.symm
  refine ⟨?_, ?_, ?_, ?_⟩
  · simp only [train_test_dicts_from_mask]
    exact hkey (-1) (by decide)
  · simp only [train_test_dicts_from_mask]
    exact hkey 1 (by decide)
  · simp only [train_test_dicts_from_mask]
    rw [List.map_map]
    exact List.enum_map_snd target_list
  · simp only [train_test_dicts_from_mask]
    rw [List.map_map]
    exact List.enum_map_snd target_list

/-- Witness for C10: molecule `0` has mask column all zeros, so it lands
in neither fingerprint dict, while target `7` appears in both target
dicts. -/
theorem claim_C10_witness :
    (0 < ([0, 1] : List ℕ).length) ∧
    ([0, 1] : List ℕ).Nodup ∧
    (∀ row ∈ [[(0 : Int), 1]], row.getD 0 0 = 0) ∧
    ((0 : ℕ) ∉
        ((train_test_dicts_from_mask (fun _ => (0 : ℕ)) [0, 1]
          (fun _ => SetValue.mk (3 : ℕ) [0] 3) [7] [[0, 1]]).1.map Prod.fst) ∧
      (0 : ℕ) ∉
        ((train_test_dicts_from_mask (fun _ => (0 : ℕ)) [0, 1]
          (fun _ => SetValue.mk (3 : ℕ) [0] 3) [7] [[0, 1]]).2.2.1.map Prod.fst) ∧
      ((train_test_dicts_from_mask (fun _ => (0 : ℕ)) [0, 1]
          (fun _ => SetValue.mk (3 : ℕ) [0] 3) [7] [[0, 1]]).2.1.map Prod.fst) = [7] ∧
      ((train_test_dicts_from_mask (fun _ => (0 : ℕ)) [0, 1]
          (fun _ => SetValue.mk (3 : ℕ) [0] 3) [7] [[0, 1]]).2.2.2.map Prod.fst) = [7]) :=
  ⟨by decide, by decide, by decide,
    claim_C10 (fun _ => (0 : ℕ)) [0, 1] (fun _ => SetValue.mk (3 : ℕ) [0] 3) [7]
      [[0, 1]] 0 (by decide) (by decide) (by decide)⟩

end FoldSplitterProofs

/-! ## Lemmas about the metrics engine -/

section MetricsProofs

/-- C2: fed a label array holding only one class (all ones or all
zeros), `get_roc_prc_auc` raises — the single-class warning, made an
error by `warnings.simplefilter("error")`, escapes — and never silently
returns a NaN or zero value. -/
theorem claim_C2 (true_false : List Bool) (metrics : List ℚ)
    (hdeg : (∀ l ∈ true_false, l = true) ∨ (∀ l ∈ true_false, l = false)) :
    ∃ e, get_roc_prc_auc true_false metrics = Except.error e := by
  refine ⟨MetricError.undefinedMetric, ?_⟩
  have hroc : roc_curve true_false metrics = Except.error MetricError.undefinedMetric := by
    simp only [roc_curve]
    rcases hdeg with h | h
    · have hneg : (true_false.filter (fun b => !b)).length = 0 := by
        rw [List.length_eq_zero, List.filter_eq_nil_iff]
        intro b hb
        rw [h b hb]
        simp
      rw [if_pos (Or.inr hneg)]
    · have hpos : (true_false.filter (fun b => b)).length = 0 := by
        rw [List.length_eq_zero, List.filter_eq_nil_iff]
        intro b hb
        rw [h b hb]
        simp
      rw [if_pos (Or.inl hpos)]
  rw [get_roc_prc_auc, hroc]
  rfl

/-- Witness for C2: two positive labels and no negative one. -/
theorem claim_C2_witness :
    ((∀ l ∈ [true, true], l = true) ∨ (∀ l ∈ [true, true], l = false)) ∧
    ∃ e, get_roc_prc_auc [true, true] [1 / 2, 1 / 3] = Except.error e :=
  ⟨Or.inl (by decide), claim_C2 [true, true] [1 / 2, 1 / 3] (Or.inl (by decide))⟩

end MetricsProofs

/-! ## Lemmas about `get_logauc` -/

section LogAucProofs

theorem logb_ten_pow (n : ℕ) : Real.logb 10 (10 ^ n) = n := by
  rw [Real.logb, Real.log_pow, mul_div_assoc,
    div_self (ne_of_gt (Real.log_pos (by norm_num))), mul_one]

/-- Lower numeric bound on `ln 10`, from `ln 2` bounds via
`2^10 = 1000 · 1.024` and `ln(1.024) < 0.024`. -/
theorem log_ten_gt : (2.302 : ℝ) < Real.log 10 := by
  have h2 : Real.log 1024 = 10 * Real.log 2 := by
    rw [show (1024 : ℝ) = 2 ^ (10 : ℕ) by norm_num, Real.log_pow]
    norm_num
  have h3 : Real.log 1024 = Real.log 1000 + Real.log 1.024 := by
    rw [← Real.log_mul (by norm_num) (by norm_num)]
    norm_num
  have h4 : Real.log 1000 = 3 * Real.log 10 := by
    rw [show (1000 : ℝ) = 10 ^ (3 : ℕ) by norm_num, Real.log_pow]
    norm_num
  have h5 : Real.log 1.024 < 0.024 := by
    have h := Real.log_lt_sub_one_of_pos (show (0 : ℝ) < 1.024 by norm_num) (by norm_num)
    linarith
  have h7 := Real.log_two_gt_d9
  linarith

/-- Upper numeric bound on `ln 10`. -/
theorem log_ten_lt : Real.log 10 < 2.3105 := by
  have h2 : Real.log 1024 = 10 * Real.log 2 := by
    rw [show (1024 : ℝ) = 2 ^ (10 : ℕ) by norm_num, Real.log_pow]
    norm_num
  have h3 : Real.log 1024 = Real.log 1000 + Real.log 1.024 := by
    rw [← Real.log_mul (by norm_num) (by norm_num)]
    norm_num
  have h4 : Real.log 1000 = 3 * Real.log 10 := by
    rw [show (1000 : ℝ) = 10 ^ (3 : ℕ) by norm_num, Real.log_pow]
    norm_num
  have h6 : 0 < Real.log 1.024 := Real.log_pos (by norm_num)
  have h8 := Real.log_two_lt_d9
  linarith

/-- The vectorized numpy pipeline of `get_logauc` computes exactly the
sum of per-segment areas over consecutive points. -/
theorem logaucAreasSum_eq_segSum (norm : ℝ) : ∀ (x y : List ℝ),
    logaucAreasSum norm x y = segSum (logSegArea norm) x y := by
  intro x
  induction x with
  | nil =>
    intro y
    cases y <;> simp [logaucAreasSum, segSum]
  | cons x0 xs ihx =>
    intro y
    cases y with
    | nil => simp [logaucAreasSum, segSum]
    | cons y0 ys =>
      cases xs with
      | nil => cases ys <;> simp [logaucAreasSum, segSum]
      | cons x1 xs' =>
        cases ys with
        | nil => simp [logaucAreasSum, segSum]
        | cons y1 ys' =>
          have ih := ihx (y1 :: ys')
          simp only [logaucAreasSum, segSum, List.drop_succ_cons, List.drop_zero,
            List.zipWith_cons_cons, List.zip_cons_cons, List.sum_cons] at ih ⊢
          rw [← ih]
          simp [logSegArea]

/-- The unadjusted `get_logauc` equals the claim's truncate-prepend-sum
formula, with the linear-x chord intercept. -/
theorem get_logauc_eq_formula (fp tp : List ℝ) (min_fp : ℝ) :
    get_logauc fp tp min_fp false = logauc_formula fp tp min_fp := by
  simp only [get_logauc, logauc_formula, logrocX, logrocY, Bool.false_eq_true, if_false]
  exact logaucAreasSum_eq_segSum _ _ _

/-- Counterexample to C4 as stated: on the truncated ROC points
`(0.01, 0), (1, 1)` with `min_fp = 0.001` the code's segment area uses
the linear-x chord intercept `1 - 1·(1/0.99) = -1/99`, whereas the
y-intercept of the line through the two points in log-x space — through
`(log10 0.01, 0) = (-2, 0)` and `(log10 1, 1) = (0, 1)` — equals `1`
(the line meets the y-axis at the second point, whatever its slope), so
the two sums differ. -/
theorem claim_C4_counterexample :
    get_logauc [0.01, 1] [0, 1] 0.001 false ≠ logauc_claimed [0.01, 1] [0, 1] 0.001 := by
  have hss : np_searchsorted [(0.01 : ℝ), 1] 0.001 = 0 := by
    rw [np_searchsorted]
    norm_num [searchsortedLoop, List.getD]
  have hnorm : Real.logb 10 (1000 : ℝ) = 3 := by
    rw [show (1000 : ℝ) = 10 ^ (3 : ℕ) by norm_num]
    exact_mod_cast logb_ten_pow 3
  have h100 : Real.logb 10 (100 : ℝ) = 2 := by
    rw [show (100 : ℝ) = 10 ^ (2 : ℕ) by norm_num]
    exact_mod_cast logb_ten_pow 2
  have h001 : Real.logb 10 (0.01 : ℝ) = -2 := by
    rw [show (0.01 : ℝ) = ((10 : ℝ) ^ (2 : ℕ))⁻¹ by norm_num, Real.logb_inv]
    rw [show ((10 : ℝ) ^ (2 : ℕ)) = 100 by norm_num, h100]
  have h1 : Real.logb 10 (1 : ℝ) = 0 := Real.logb_one
  have hcode : get_logauc [0.01, 1] [0, 1] 0.001 false = (1 / Real.log 10 - 2 / 99) / 3 := by
    rw [get_logauc]
    simp only [hss]
    norm_num [logaucAreasSum, hnorm, h100]
    ring
  have hclaimed : logauc_claimed [0.01, 1] [0, 1] 0.001 = (1 / Real.log 10 + 2) / 3 := by
    rw [logauc_claimed, logrocX, logrocY]
    simp only [hss]
    norm_num [segSum, logSegAreaLogSpace, hnorm, h100, h001, h1]
  rw [hcode, hclaimed]
  intro heq
  have : (1 / Real.log 10 - 2 / 99) = (1 / Real.log 10 + 2) := by linarith
  linarith

/-- C4 (amended): `get_logauc` truncates both arrays from index
`searchsorted(fpr, min_fp)` on, prepends the step-interpolated point
`(min_fp, tpr[index-1])` when that index is positive, and returns the
sum over consecutive truncated points of
`(Δy/ln 10 + intercept·log10(xᵢ/xᵢ₋₁))/norm`, where `intercept` is the
y-intercept of the segment's chord in linear-x coordinates (zero when
infinite) and `norm = log10(1/min_fp)`. -/
theorem claim_C4 (fp tp : List ℝ) (min_fp : ℝ) :
    get_logauc fp tp min_fp false = logauc_formula fp tp min_fp :=
  get_logauc_eq_formula fp tp min_fp

/-- C5: `adjusted=True` subtracts exactly the constant `0.144620062`
from the unadjusted logAUC for every input; on the random continuous
ROC curve `tpr = fpr` spanning [0,1]×[0,1] (represented by its points
`(0,0), (0.001, 0.001), (1,1)`, which the piecewise-linear integral
reproduces exactly) the unadjusted logAUC at `min_fp = 0.001` is the
closed form `1/(3·ln 10) = log10(e)/3 ≈ 0.14462007`, so the adjusted
logAUC is approximately 0 (within 1/1000; the true distance is about
1e-8). -/
theorem claim_C5 :
    (∀ (fp tp : List ℝ) (min_fp : ℝ),
      get_logauc fp tp min_fp true = get_logauc fp tp min_fp false - 0.144620062) ∧
    get_logauc [0, 0.001, 1] [0, 0.001, 1] 0.001 false = 1 / (3 * Real.log 10) ∧
    |get_logauc [0, 0.001, 1] [0, 0.001, 1] 0.001 true| < 1 / 1000 := by
  have hadj : ∀ (fp tp : List ℝ) (min_fp : ℝ),
      get_logauc fp tp min_fp true = get_logauc fp tp min_fp false - 0.144620062 := by
    intro fp tp min_fp
    simp [get_logauc]
  have hval : get_logauc [0, 0.001, 1] [0, 0.001, 1] 0.001 false = 1 / (3 * Real.log 10) := by
    have hss : np_searchsorted [(0 : ℝ), 0.001, 1] 0.001 = 1 := by
      rw [np_searchsorted]
      norm_num [searchsortedLoop, List.getD]
    have hnorm : Real.logb 10 (1000 : ℝ) = 3 := by
      rw [show (1000 : ℝ) = 10 ^ (3 : ℕ) by norm_num]
      exact_mod_cast logb_ten_pow 3
    have hLne : Real.log 10 ≠ 0 := ne_of_gt (Real.log_pos (by norm_num))
    rw [get_logauc]
    simp only [hss]
    norm_num [logaucAreasSum, hnorm]
    field_simp
    ring
  refine ⟨hadj, hval, ?_⟩
  rw [hadj, hval]
  have hL1 := log_ten_gt
  have hL2 := log_ten_lt
  have hpos : (0 : ℝ) < 3 * Real.log 10 := by linarith
  have hub : 1 / (3 * Real.log 10) < 0.14481 := by
    rw [div_lt_iff₀ hpos]
    nlinarith
  have hlb : (0.14426 : ℝ) < 1 / (3 * Real.log 10) := by
    rw [lt_div_iff₀ hpos]
    nlinarith
  rw [abs_lt]
  constructor <;> linarith

end LogAucProofs

end E3FP
